import Mathlib

/-!
# KuiperDB: a shallow embedding of the core components, with proofs

This file models, in Lean, the parts of the kuiperdb Rust code base that the
verified properties talk about, and proves (or refutes) those properties.

Each definition is translated from a concrete function of the source tree
(`kuiperdb-core/src/store.rs`, `search.rs`, `index.rs`, `cache.rs`,
`chunking.rs`, `embedder.rs`, `graph.rs`, and `kuiperdb-server/src/main.rs`);
the doc comment of every definition names the Rust item it embeds.

Modelling conventions:
* Rust `f32`/`f64` values that the algorithms merely carry around or combine
  with exact field operations are modelled as `ℚ`.
* SQLite tables are modelled as Lean lists of row structures; a SQL statement
  becomes the corresponding pure list transformation.
* Fallible Rust functions (`Result`) become `Except String` or an explicit
  error component.
* `HashMap` iteration order is not observable by any property proved here;
  hash maps are modelled as association lists in insertion order.
-/

namespace KuiperDB

/-! ## C1: vector index gating (store.rs, main.rs) -/

/-- Embeds the mode wiring of `kuiperdb-server/src/main.rs` (`main`):
`"always" => true, "never" => false, "auto" => true, _ => true` is the value
passed as `enabled` to `DocumentStore::configure_indexing`. -/
def modeEnabled (mode : String) : Bool :=
  if mode = "always" then true
  else if mode = "never" then false
  else if mode = "auto" then true
  else true

/-- Embeds `DocumentStore::should_use_index` (store.rs): returns `false` when
`use_indexing` is off, otherwise compares the count of rows with
`is_embedded = 1` against `index_threshold`
(`count as usize >= self.index_threshold`). -/
def should_use_index (useIndexing : Bool) (indexThreshold : Nat)
    (embeddedCount : Nat) : Bool :=
  if !useIndexing then false
  else decide (indexThreshold ≤ embeddedCount)

/-- Embeds the path decision of `DocumentStore::search_vector` (store.rs):
the HNSW path (`search_vector_with_index`) is taken exactly when
`should_use_index` returns true, otherwise the brute-force path.
`use_indexing` and `index_threshold` are the values stored by
`configure_indexing`, i.e. `modeEnabled mode` and the configured threshold. -/
def searchVectorUsesHnsw (mode : String) (threshold : Nat)
    (embeddedCount : Nat) : Bool :=
  should_use_index (modeEnabled mode) threshold embeddedCount

/-! ## C7: table name validation (store.rs) -/

/-- Embeds `is_valid_table_name` (store.rs):
`!name.is_empty() && name.chars().all(|c| c.is_alphanumeric() || c == '_')`.
The Unicode-table-driven stdlib predicate `char::is_alphanumeric`
(Unicode `Alphabetic` plus categories Nd/Nl/No) is abstracted as the
parameter `isAlphanumeric`, just as SHA-256 is for the cache: theorems
state the facts about it they rely on as hypotheses (e.g. that it accepts
the ASCII digits and letters), and concrete evaluations instantiate it
with `latin1IsAlphanumeric` on strings whose characters all lie in the
blocks where that restriction agrees with the stdlib. -/
def is_valid_table_name (isAlphanumeric : Char → Bool) (name : String) :
    Bool :=
  !name.isEmpty && name.toList.all (fun c => isAlphanumeric c || c = '_')

/-- Embeds the validation gate at the top of `DocumentStore::ensure_table`
and `DocumentStore::delete_table` (store.rs): both bail with an
invalid-name error when `is_valid_table_name` fails, and proceed otherwise. -/
def ensureTableGate (isAlphanumeric : Char → Bool) (name : String) :
    Except String Unit :=
  if !is_valid_table_name isAlphanumeric name then
    .error ("Invalid table name: " ++ name)
  else .ok ()

/-- The restriction of Rust `char::is_alphanumeric` to the Basic Latin and
Latin-1 Supplement blocks (U+0000..U+00FF), transcribed from the Unicode
table: the ASCII digits and letters together with U+00AA, U+00B5, U+00BA,
U+00B2, U+00B3, U+00B9, U+00BC, U+00BD, U+00BE, U+00C0–U+00D6,
U+00D8–U+00F6 and U+00F8–U+00FF.  Outside these blocks it returns `false`
rather than the stdlib table lookup, so it only ever instantiates the
abstract `isAlphanumeric` parameter on strings whose characters lie within
the blocks (the theorems about the validator quantify over the abstract
predicate instead). -/
def latin1IsAlphanumeric (c : Char) : Bool :=
  let n := c.toNat
  decide ((0x30 ≤ n ∧ n ≤ 0x39) ∨ (0x41 ≤ n ∧ n ≤ 0x5A) ∨ (0x61 ≤ n ∧ n ≤ 0x7A) ∨
    n = 0xAA ∨ n = 0xB5 ∨ n = 0xBA ∨
    n = 0xB2 ∨ n = 0xB3 ∨ n = 0xB9 ∨ n = 0xBC ∨ n = 0xBD ∨ n = 0xBE ∨
    (0xC0 ≤ n ∧ n ≤ 0xD6) ∨ (0xD8 ≤ n ∧ n ≤ 0xF6) ∨ (0xF8 ≤ n ∧ n ≤ 0xFF))

/-- The ASCII digits and letters — a set on which Rust
`char::is_alphanumeric` returns true; theorems take this fact about the
abstract predicate as a hypothesis. -/
def asciiAlphanumChar (c : Char) : Bool :=
  let n := c.toNat
  decide ((0x30 ≤ n ∧ n ≤ 0x39) ∨ (0x41 ≤ n ∧ n ≤ 0x5A) ∨
    (0x61 ≤ n ∧ n ≤ 0x7A))

/-- The character class `[A-Za-z0-9_]` named by the specification.  This
definition follows the spec wording (not the source) and exists only to be
compared against `is_valid_table_name`. -/
def specWordChar (c : Char) : Bool :=
  let n := c.toNat
  decide ((0x30 ≤ n ∧ n ≤ 0x39) ∨ (0x41 ≤ n ∧ n ≤ 0x5A) ∨
    (0x61 ≤ n ∧ n ≤ 0x7A) ∨ c = '_')

/-- `name` matches `[A-Za-z0-9_]+`, as worded by the specification. -/
def specValidTableName (name : String) : Bool :=
  !name.isEmpty && name.toList.all specWordChar

/-! ## Stable sorting

Rust's `sort` / `sort_by` are stable sorts; a stable sort's output is
determined by the comparator alone (given a total preorder), so they are
modelled by stable insertion sort, which evaluates by reduction. -/

/-- Insert `x` in front of the first element `y` with `le x y`; keeps `x`
before later equal elements, as a stable sort does. -/
def stableInsertBy {α : Type} (le : α → α → Bool) (x : α) :
    List α → List α
  | [] => [x]
  | y :: ys => if le x y then x :: y :: ys else y :: stableInsertBy le x ys

/-- Stable insertion sort with comparator `le` ("may come before"). -/
def stableSortBy {α : Type} (le : α → α → Bool) : List α → List α
  | [] => []
  | x :: xs => stableInsertBy le x (stableSortBy le xs)

/-! ## C10: list_databases (store.rs) -/

/-- A file in the modelled file system: the directory it lives in, its name
stem and its extension (mirroring `Path::file_stem` / `Path::extension`). -/
structure FileEntry where
  dir : String
  stem : String
  ext : String
  deriving DecidableEq

/-- Embeds `DocumentStore::list_databases` (store.rs).  The source reads the
hard-coded directory `Path::new("data")` — it never consults
`self.base_dir` — keeps files with extension `db` whose stem is not
`global`, and sorts the stems (`databases.sort()`, ascending lexicographic).
`fs` models the file system as the list of extant files. -/
def list_databases (fs : List FileEntry) : List String :=
  stableSortBy (fun a b => a ≤ b)
    ((fs.filter
      (fun f => f.dir = "data" ∧ f.ext = "db" ∧ f.stem ≠ "global")).map
        FileEntry.stem)

/-- The behaviour the specification assigns to `list_databases`: scan the
store's `base_dir` (not a hard-coded directory).  This definition follows the
spec wording and exists only to be compared against `list_databases`. -/
def specListDatabases (baseDir : String) (fs : List FileEntry) : List String :=
  stableSortBy (fun a b => a ≤ b)
    ((fs.filter
      (fun f => f.dir = baseDir ∧ f.ext = "db" ∧ f.stem ≠ "global")).map
        FileEntry.stem)

/-! ## C6: fixed-token chunker (chunking.rs) -/

/-- Embeds the `while start < tokens.len()` loop of
`FixedTokenChunker::chunk` (chunking.rs), at the token level.  Each
iteration takes the window `tokens[start..min(start+chunk_size, len)]`,
stops after pushing it when `end >= tokens.len()`, otherwise advances
`start` to `end - effective_overlap` (or `end` when the effective overlap is
zero) and stops — before pushing anything further — when the new start is
`>= end` (the source comments call this a safety check against infinite
loops).  `fuel` bounds the recursion; every recursive call strictly
increases `start`, so `fuel = tokens.length` never runs out when the loop is
entered at `start = 0`. -/
def chunkLoop (tokens : List Nat) (chunkSize effOverlap : Nat) :
    Nat → Nat → List (List Nat)
  | 0, _ => []
  | fuel + 1, start =>
    if start < tokens.length then
      let e := min (start + chunkSize) tokens.length
      let chunk := (tokens.drop start).take (e - start)
      if tokens.length ≤ e then [chunk]
      else
        let start2 := if 0 < effOverlap then e - effOverlap else e
        if e ≤ start2 then [chunk]
        else chunk :: chunkLoop tokens chunkSize effOverlap fuel start2
    else []

/-- Embeds `FixedTokenChunker::chunk` (chunking.rs) at the token level: the
BPE encoding of the input text is the `tokens` argument and each returned
window stands for the decoded text of those tokens.  Empty input returns no
chunks; an input of at most `chunk_size` tokens is returned unchanged as a
single chunk; otherwise the window loop runs with
`effective_overlap = overlap.min(chunk_size.saturating_sub(1))`. -/
def fixedTokenChunk (tokens : List Nat) (chunkSize overlap : Nat) :
    List (List Nat) :=
  if tokens.isEmpty then []
  else if tokens.length ≤ chunkSize then [tokens]
  else chunkLoop tokens chunkSize (min overlap (chunkSize - 1)) tokens.length 0

/-! ## C3: vector index build/add (index.rs) -/

/-- The mutable state of `VectorIndex` (index.rs) that `build`, `add` and
`search` interact with: the multiset of `(vector, position)` pairs handed to
`Hnsw::insert`, the forward map `id_map : position → document id` (a vector,
indexed by position), and the inverse map `reverse_map : doc id → position`.
The HNSW graph structure itself is opaque to the verified invariant; only
its inserted points matter. -/
structure VectorIndexState where
  hnswInserts : List (List ℚ × Nat)
  idMap : List String
  reverseMap : List (String × Nat)
  deriving DecidableEq

/-- The empty `VectorIndex` state (`VectorIndex::new`). -/
def VectorIndexState.empty : VectorIndexState := ⟨[], [], []⟩

/-- Embeds `VectorIndex::build` (index.rs).  The enumerated document list is
folded: a document whose vector length differs from `self.dimensions` is
skipped (`continue`) with a warning; otherwise the source executes
`hnsw.insert((&vector, idx))`, `id_map.push(doc_id)` and
`reverse_map.insert(doc_id, idx)` where `idx` is the `enumerate` index of
the document in the input (not the length of `id_map`).  An empty input
returns with no state change. -/
def VectorIndex.build (dimensions : Nat)
    (documents : List (String × List ℚ)) : VectorIndexState :=
  if documents.isEmpty then VectorIndexState.empty
  else
    documents.enum.foldl
      (fun st p =>
        let idx := p.1
        let docId := p.2.1
        let vector := p.2.2
        if vector.length ≠ dimensions then st
        else
          { hnswInserts := st.hnswInserts ++ [(vector, idx)],
            idMap := st.idMap ++ [docId],
            reverseMap := st.reverseMap ++ [(docId, idx)] })
      VectorIndexState.empty

/-- Embeds `VectorIndex::add` (index.rs): bail on a dimension mismatch;
a doc id already present in `reverse_map` is a no-op; otherwise insert into
the HNSW at `idx = id_map.len()`, push onto `id_map` and record the inverse
entry. -/
def VectorIndex.add (dimensions : Nat) (st : VectorIndexState)
    (docId : String) (vector : List ℚ) : Except String VectorIndexState :=
  if vector.length ≠ dimensions then
    .error "Vector dimension mismatch"
  else if (st.reverseMap.lookup docId).isSome then .ok st
  else
    let idx := st.idMap.length
    .ok { hnswInserts := st.hnswInserts ++ [(vector, idx)],
          idMap := st.idMap ++ [docId],
          reverseMap := st.reverseMap ++ [(docId, idx)] }

/-! ## C4: embedding cache (cache.rs) -/

/-- A row of the `embedding_cache` disk table (cache.rs):
`content_hash PRIMARY KEY, vector, model, created_at`.  Vector BLOBs are
modelled as the vectors they decode to (the little-endian f32 codec is an
exact round trip). -/
structure DiskCacheRow where
  contentHash : String
  vector : List ℚ
  model : String
  createdAt : Nat
  deriving DecidableEq

/-- Embeds the disk half of `EmbeddingCache::put` (cache.rs):
`INSERT ... ON CONFLICT(content_hash) DO UPDATE SET vector = excluded.vector,
created_at = excluded.created_at`.  Note the `model` column is *not* part of
the conflict update: an existing row for the same hash keeps its original
model tag.  `hashContent` abstracts `hash_content` (SHA-256 of the content,
in lowercase hex). -/
def EmbeddingCache.putDisk (hashContent : String → String) (model : String)
    (now : Nat) (disk : List DiskCacheRow) (content : String)
    (vector : List ℚ) : List DiskCacheRow :=
  let hash := hashContent content
  if disk.any (fun r => r.contentHash = hash) then
    disk.map (fun r =>
      if r.contentHash = hash then
        { r with vector := vector, createdAt := now }
      else r)
  else disk ++ [⟨hash, vector, model, now⟩]

/-- Embeds `EmbeddingCache::get` (cache.rs), as far as the returned value is
concerned: the memory LRU is consulted first (`mem` holds the entries of
this cache instance's LRU as `hash → vector`); on a miss the disk table is
queried with `WHERE content_hash = ? AND model = ?`.  The statistics counters
and the LRU reordering / memory population performed by `get` do not affect
the returned value and are not modelled. -/
def EmbeddingCache.get (hashContent : String → String) (model : String)
    (mem : List (String × List ℚ)) (disk : List DiskCacheRow)
    (content : String) : Option (List ℚ) :=
  let hash := hashContent content
  match mem.lookup hash with
  | some v => some v
  | none =>
    match disk.find? (fun r => r.contentHash = hash ∧ r.model = model) with
    | some r => some r.vector
    | none => none

/-- One recorded `put` against the shared `embedding_cache` disk table: the
model the issuing cache instance was configured with, the content, and the
vector. -/
structure PutEvent where
  model : String
  content : String
  vector : List ℚ
  deriving DecidableEq

/-- The disk table produced by a sequence of `put` calls (possibly issued by
cache instances configured with different models) against an initially empty
table.  The list is in reverse chronological order: the last element is the
first `put` executed.  Timestamps are the event positions. -/
def runPuts (hashContent : String → String) :
    List PutEvent → List DiskCacheRow
  | [] => []
  | e :: es =>
    EmbeddingCache.putDisk hashContent e.model (es.length)
      (runPuts hashContent es) e.content e.vector

/-! ## C5: delete_document_by_id (store.rs) -/

/-- A row of a user table, restricted to the columns that
`delete_document_by_id` and the `ON DELETE CASCADE` foreign key inspect
(`id`, `parent_id`); `content` stands for the remaining payload columns,
none of which influence deletion. -/
structure DocRow where
  id : String
  content : String
  parentId : Option String
  deriving DecidableEq

/-- One step of the SQLite cascade: rows whose `parent_id` is an already
deleted id become deleted themselves (the schema declares
`FOREIGN KEY (parent_id) REFERENCES T(id) ON DELETE CASCADE` and `get_pool`
runs `PRAGMA foreign_keys = ON`). -/
def cascadeStep (table : List DocRow) (deleted : List String) : List String :=
  deleted ++
    (table.filter (fun r =>
      !(deleted.contains r.id) &&
        match r.parentId with
        | some p => deleted.contains p
        | none => false)).map DocRow.id

/-- The set of row ids removed by `DELETE FROM T WHERE id = docId` under the
cascading foreign key: the transitive closure of the child relation above
`docId`, reached after at most `table.length` cascade steps. -/
def deletedClosure (table : List DocRow) (docId : String) : List String :=
  (cascadeStep table)^[table.length] [docId]

/-- The table after `DELETE FROM T WHERE id = ?` with the cascade applied. -/
def sqlDeleteCascade (table : List DocRow) (docId : String) : List DocRow :=
  let dead := deletedClosure table docId
  table.filter (fun r => !(dead.contains r.id))

/-- Embeds `DocumentStore::delete_document_by_id` (store.rs): first
`SELECT parent_id FROM T WHERE id = ?` (`fetch_optional`; the primary key
makes the row unique); if a row exists and its `parent_id` is non-null the
call returns an error before any deletion, so the table is unchanged;
otherwise `DELETE FROM T WHERE id = ?` runs and the cascade removes the
children.  The result pairs the optional error with the resulting table. -/
def delete_document_by_id (table : List DocRow) (docId : String) :
    Option String × List DocRow :=
  match table.find? (fun r => r.id = docId) with
  | some row =>
    match row.parentId with
    | some _ =>
      (some "Cannot delete child document. Delete the parent document instead, which will cascade delete all children.",
        table)
    | none => (none, sqlDeleteCascade table docId)
  | none => (none, sqlDeleteCascade table docId)

/-! ## C9: BFS traversal (graph.rs) -/

/-- `DocumentRelation` (models.rs): a directed typed edge.  The free-form
`metadata` map and `created_at` timestamp are carried by the source struct
but never inspected by the graph algorithms; `metadata` is modelled
opaquely as key/value strings and the timestamp as milliseconds. -/
structure DocumentRelation where
  id : String
  sourceId : String
  targetId : String
  relationType : String
  metadata : List (String × String)
  createdAt : Nat
  deriving DecidableEq

/-- The result struct of `DocumentGraph::traverse_bfs` (graph.rs). -/
structure TraversalResult where
  documentIds : List String
  relations : List DocumentRelation
  depthMap : List (String × Nat)
  deriving DecidableEq

/-- The relation filter at the top of `traverse_bfs` (graph.rs): when a
filter is supplied, keep the relations whose type occurs in it. -/
def filterRelations (relations : List DocumentRelation)
    (filter : Option (List String)) : List DocumentRelation :=
  match filter with
  | some types => relations.filter (fun r => r.relationType ∈ types)
  | none => relations

/-- The node set of the graph built by `DocumentGraph::build_graph`
(graph.rs): every id occurring as a source or target of a relation.  The
source deduplicates through a `HashSet`; only membership matters here. -/
def graphNodes (relations : List DocumentRelation) : List String :=
  relations.foldr (fun r acc => r.sourceId :: r.targetId :: acc) []

/-- The outgoing neighbours of `n` in the built graph
(`graph.neighbors(node_idx)` on a petgraph `DiGraph` yields the targets of
the edges whose source is the node; petgraph's reverse-insertion order is
irrelevant to every property proved here). -/
def graphNeighbors (relations : List DocumentRelation) (n : String) :
    List String :=
  (relations.filter (fun r => r.sourceId = n)).map DocumentRelation.targetId

/-- The accumulator threaded through one BFS level of `traverse_bfs`:
`visited`, `depth_map` and `next_depth_nodes`. -/
structure BfsAcc where
  visited : List String
  depthMap : List (String × Nat)
  nextLayer : List String

/-- The inner `for neighbor in graph.neighbors(node_idx)` loop of
`traverse_bfs` (graph.rs): each neighbour not yet in `depth_map` is
recorded at `depth`, appended to `visited` and scheduled for the next
level. -/
def bfsVisitNeighbors (depth : Nat) :
    List String → BfsAcc → BfsAcc
  | [], acc => acc
  | nb :: rest, acc =>
    if (acc.depthMap.lookup nb).isSome then
      bfsVisitNeighbors depth rest acc
    else
      bfsVisitNeighbors depth rest
        ⟨acc.visited ++ [nb], acc.depthMap ++ [(nb, depth)],
          acc.nextLayer ++ [nb]⟩

/-- The outer `for &node_idx in &nodes_at_depth` loop of `traverse_bfs`. -/
def bfsVisitLayer (adj : String → List String) (depth : Nat) :
    List String → BfsAcc → BfsAcc
  | [], acc => acc
  | n :: rest, acc =>
    bfsVisitLayer adj depth rest (bfsVisitNeighbors depth (adj n) acc)

/-- The `while current_depth < max_depth && !nodes_at_depth.is_empty()`
loop of `traverse_bfs` (graph.rs), with `remaining = max_depth -
current_depth` as the structural fuel and `depth = current_depth + 1` the
depth assigned to newly discovered nodes. -/
def bfsLoop (adj : String → List String) :
    Nat → Nat → List String → List String → List (String × Nat) →
      List String × List (String × Nat)
  | 0, _, _, visited, depthMap => (visited, depthMap)
  | remaining + 1, depth, layer, visited, depthMap =>
    if layer.isEmpty then (visited, depthMap)
    else
      let acc := bfsVisitLayer adj depth layer ⟨visited, depthMap, []⟩
      bfsLoop adj remaining (depth + 1) acc.nextLayer acc.visited acc.depthMap

/-- Embeds `DocumentGraph::traverse_bfs` (graph.rs): filter the relations,
build the graph, return the empty result when `start_id` is not a node of
the filtered graph; otherwise run the level BFS seeded with the start node
at depth 0 and keep the filtered relations whose two endpoints were
visited. -/
def traverse_bfs (startId : String) (relations : List DocumentRelation)
    (maxDepth : Nat) (filter : Option (List String)) : TraversalResult :=
  let filtered := filterRelations relations filter
  if startId ∈ graphNodes filtered then
    let out := bfsLoop (graphNeighbors filtered) maxDepth 1 [startId]
      [startId] [(startId, 0)]
    { documentIds := out.1,
      relations := filtered.filter
        (fun r => r.sourceId ∈ out.1 ∧ r.targetId ∈ out.1),
      depthMap := out.2 }
  else { documentIds := [], relations := [], depthMap := [] }

/-! ## C2: reciprocal rank fusion (search.rs) -/

/-- The candidate tuple produced by `search_fts` / `search_vector`
(`SearchResultTuple` in search.rs): id, content, metadata, raw score (FTS
rank or vector similarity), and the chunk columns.  JSON metadata values are
modelled opaquely as strings, raw f64 scores as `ℚ`. -/
structure SearchTuple where
  id : String
  content : String
  metadata : List (String × String)
  score : ℚ
  isChunk : Bool
  parentId : Option String
  chunkIndex : Option Int
  deriving DecidableEq

/-- The value component of the `RrfScoreMap` accumulator (search.rs):
combined score, raw FTS rank, raw vector similarity, and the carried
payload columns. -/
structure RrfEntry where
  score : ℚ
  ftsRank : Option ℚ
  vectorSimilarity : Option ℚ
  content : String
  metadata : List (String × String)
  isChunk : Bool
  parentId : Option String
  chunkIndex : Option Int
  deriving DecidableEq

/-- The `SearchResult` struct (search.rs). -/
structure SearchResult where
  id : String
  content : String
  metadata : List (String × String)
  score : ℚ
  ftsRank : Option ℚ
  vectorSimilarity : Option ℚ
  isChunk : Bool
  parentId : Option String
  chunkIndex : Option Int
  deriving DecidableEq

/-- The RRF increment `1.0 / (self.k as f64 + rank as f64 + 1.0)`. -/
def rrfIncrement (k rank : Nat) : ℚ :=
  1 / ((k : ℚ) + (rank : ℚ) + 1)

/-- `HashMap::entry(key).and_modify(modify).or_insert(dflt)`: apply
`modify` to the entry when the key is present, otherwise add `dflt`.  The
association list keeps insertion order; `HashMap` iteration order is not
observable by any property proved here. -/
def mapUpsert (m : List (String × RrfEntry)) (key : String)
    (modify : RrfEntry → RrfEntry) (dflt : RrfEntry) :
    List (String × RrfEntry) :=
  if m.any (fun p => p.1 = key) then
    m.map (fun p => if p.1 = key then (key, modify p.2) else p)
  else m ++ [(key, dflt)]

/-- `HashMap::insert`: overwrite the entry when the key is present,
otherwise add it. -/
def mapInsert (m : List (String × RrfEntry)) (key : String) (v : RrfEntry) :
    List (String × RrfEntry) :=
  mapUpsert m key (fun _ => v) v

/-- The tuple the FTS loop of `reciprocal_rank_fusion` inserts:
`(rrf_score, Some(fts_score), None, content, metadata, …)`. -/
def ftsEntry (k rank : Nat) (t : SearchTuple) : RrfEntry :=
  ⟨rrfIncrement k rank, some t.score, none, t.content, t.metadata,
    t.isChunk, t.parentId, t.chunkIndex⟩

/-- The tuple the vector loop inserts on `or_insert`:
`(rrf_score, None, Some(vec_score), content, metadata, …)`. -/
def vecEntry (k rank : Nat) (t : SearchTuple) : RrfEntry :=
  ⟨rrfIncrement k rank, none, some t.score, t.content, t.metadata,
    t.isChunk, t.parentId, t.chunkIndex⟩

/-- The `and_modify` closure of the vector loop:
`*score += rrf_score; *vec = Some(vec_score)`. -/
def vecModify (k rank : Nat) (t : SearchTuple) (e : RrfEntry) : RrfEntry :=
  { e with
    score := e.score + rrfIncrement k rank,
    vectorSimilarity := some t.score }

/-- The first loop of `HybridSearcher::reciprocal_rank_fusion` (search.rs):
`scores.insert(id, (rrf_score, Some(fts_score), None, …))` for each FTS
tuple, with the zero-based enumeration rank. -/
def addFtsRanks (k : Nat) :
    List SearchTuple → Nat → List (String × RrfEntry) →
      List (String × RrfEntry)
  | [], _, m => m
  | t :: ts, rank, m =>
    addFtsRanks k ts (rank + 1) (mapInsert m t.id (ftsEntry k rank t))

/-- The second loop of `HybridSearcher::reciprocal_rank_fusion` (search.rs):
`scores.entry(id).and_modify(|e| { e.score += rrf; e.vec = Some(sim) })
.or_insert((rrf, None, Some(sim), …))`. -/
def addVectorRanks (k : Nat) :
    List SearchTuple → Nat → List (String × RrfEntry) →
      List (String × RrfEntry)
  | [], _, m => m
  | t :: ts, rank, m =>
    addVectorRanks k ts (rank + 1)
      (mapUpsert m t.id (vecModify k rank t) (vecEntry k rank t))

/-- The conversion of a score-map entry into a `SearchResult`
(the `.map(...)` over `scores.into_iter()` in search.rs). -/
def entryToResult (p : String × RrfEntry) : SearchResult :=
  ⟨p.1, p.2.content, p.2.metadata, p.2.score, p.2.ftsRank,
    p.2.vectorSimilarity, p.2.isChunk, p.2.parentId, p.2.chunkIndex⟩

/-- Embeds `HybridSearcher::reciprocal_rank_fusion` (search.rs): run both
rank loops over an empty map, convert the entries to `SearchResult`s and
sort by fused score descending
(`results.sort_by(|a, b| b.score.partial_cmp(&a.score).unwrap())`). -/
def reciprocal_rank_fusion (k : Nat) (ftsResults vectorResults :
    List SearchTuple) : List SearchResult :=
  stableSortBy (fun a b => b.score ≤ a.score)
    ((addVectorRanks k vectorResults 0
      (addFtsRanks k ftsResults 0 [])).map entryToResult)

/-- The RRF constant of `HybridSearcher::new` (search.rs): `k = 60`. -/
def hybridSearcherK : Nat := 60

/-- The fused-score contribution of one candidate list to document `i`, as
the specification words it: `1/(k + rank + 1)` at the zero-based rank of
`i` in the list when `i` appears there, `0` otherwise. -/
def listContribution (k : Nat) (l : List SearchTuple) (i : String) : ℚ :=
  if i ∈ l.map SearchTuple.id then
    rrfIncrement k ((l.map SearchTuple.id).indexOf i)
  else 0

/-! ## C8: parallel embedder (embedder.rs) -/

/-- The recursion of `slice::chunks`, with the length of the remaining list
as structural fuel (each step removes at least one element once the batch
size is positive, so the fuel is never exhausted). -/
def listChunksGo (batchSize : Nat) : Nat → List String → List (List String)
  | 0, _ => []
  | fuel + 1, l =>
    if l.isEmpty then []
    else if batchSize = 0 then []
    else l.take batchSize :: listChunksGo batchSize fuel (l.drop batchSize)

/-- Rust `slice::chunks(batch_size)`: split into consecutive batches of at
most `batchSize` elements (the final batch may be shorter).  `chunks`
panics on a zero batch size; the zero case is never reached under the
theorems' hypotheses. -/
def listChunks (batchSize : Nat) (l : List String) : List (List String) :=
  listChunksGo batchSize l.length l

/-- `OpenAIEmbedder::embed_batch` (embedder.rs): the texts of a batch are
embedded sequentially through `embed`; the first failure aborts the batch.
`embedText` abstracts one `embed` call (cache + HTTP) as a function from
the text to its outcome. -/
def embed_batch (embedText : String → Except String (List ℚ)) :
    List String → Except String (List (List ℚ))
  | [] => .ok []
  | t :: ts =>
    match embedText t with
    | .error e => .error e
    | .ok v =>
      match embed_batch embedText ts with
      | .error e => .error e
      | .ok vs => .ok (v :: vs)

/-- The collection loop of `ParallelEmbedder::embed_parallel` (embedder.rs):
`while let Some(result) = tasks.next().await { all.extend(result??) }`
over the task outcomes in completion order; the first error aborts the
call with that error. -/
def collectTasks : List (Except String (List (List ℚ))) →
    Except String (List (List ℚ))
  | [] => .ok []
  | r :: rs =>
    match r with
    | .error e => .error e
    | .ok embeddings =>
      match collectTasks rs with
      | .error e => .error e
      | .ok rest => .ok (embeddings ++ rest)

/-- Embeds `ParallelEmbedder::embed_parallel` (embedder.rs): the texts are
split into batches of up to `batch_size`; each batch becomes a spawned task
running `embed_batch`; `FuturesUnordered::next` then yields the task
results in *completion* order, modelled by the scheduling parameter
`order`, a permutation of the batch indices (any permutation is realizable
once `max_workers ≥ 2`; the semaphore only bounds how many tasks run at
once). -/
def embed_parallel (embedText : String → Except String (List ℚ))
    (batchSize : Nat) (texts : List String) (order : List Nat) :
    Except String (List (List ℚ)) :=
  let batches := listChunks batchSize texts
  collectTasks (order.map (fun i => embed_batch embedText (batches.getD i [])))

/-! # Theorems -/

/-! ## C1: vector index gating -/

/-- C1 fails as stated: with mode `always` configured, a threshold of 2 and
a table holding exactly one row with `is_embedded = 1`, `search_vector`
takes the brute-force path even though the table has at least one embedded
row, because `main` maps `always` to the same `enabled = true` that `auto`
gets and `should_use_index` always compares the count against the
threshold. -/
theorem C1_counterexample : searchVectorUsesHnsw "always" 2 1 = false := by
  decide

/-- C1 (amended): under mode `never` brute force is used unconditionally;
under mode `auto` HNSW is used exactly when the count of rows with
`is_embedded = 1` is at least the threshold; and under mode `always` the
very same threshold test decides — `always` does not unconditionally select
HNSW for non-empty tables. -/
theorem C1_gating_amended (threshold count : Nat) :
    searchVectorUsesHnsw "never" threshold count = false ∧
    searchVectorUsesHnsw "auto" threshold count = decide (threshold ≤ count) ∧
    searchVectorUsesHnsw "always" threshold count =
      decide (threshold ≤ count) := by
  refine ⟨?_, ?_, ?_⟩ <;>
    simp [searchVectorUsesHnsw, should_use_index, modeEnabled]

/-! ## C3: vector index forward-map invariant -/

/-- C3 names a genuine invariant, but `VectorIndex::build` breaks it: when a
wrong-dimension vector is skipped, later documents are inserted into the
HNSW under their `enumerate` index while `id_map` records them at
`id_map.len()`.  Building a 2-dimensional index from
`[("a", [0]), ("b", [1, 0])]` skips `a`, inserts `b` at HNSW position 1,
yet the forward map places `b` at index 0 — so the position used by the
insertion differs from the index of the document in the forward map, and
`search` (which drops neighbour positions `≥ id_map.len()`) can never
return `b`.  `VectorIndex::add` (which uses `id_map.len()`) and skip-free
builds are consistent; the slip is the reuse of the enumerate index. -/
theorem C3_build_position_map_bug :
    (VectorIndex.build 2 [("a", [0]), ("b", [1, 0])]).idMap = ["b"] ∧
    ((VectorIndex.build 2 [("a", [0]), ("b", [1, 0])]).hnswInserts).map
      Prod.snd = [1] ∧
    ((VectorIndex.build 2 [("a", [0]), ("b", [1, 0])]).idMap).indexOf "b"
      = 0 := by
  refine ⟨rfl, ?_, ?_⟩ <;> rfl

/-! ## C6: fixed-token chunker -/

/-- C6 describes the intended sliding window, but the loop's safety check
(`if start >= end break`, meant to guard against a stuck window) fires on
every iteration once the effective overlap is zero, because then the next
start *equals* the previous end.  Chunking four tokens with
`chunk_size = 2, overlap = 0` therefore yields only the first window
`[0, 1]` and silently drops `[2, 3]`, contradicting both the
spec sentence "zero overlap yields disjoint windows" and the coverage
property the claim states. -/
theorem C6_chunker_zero_overlap_bug :
    fixedTokenChunk [0, 1, 2, 3] 2 0 = [[0, 1]] ∧
    (fixedTokenChunk [0, 1, 2, 3] 2 0).flatten ≠ [0, 1, 2, 3] := by
  refine ⟨rfl, ?_⟩
  decide

/-! ## C7: table-name validation -/

/-- C7 fails as stated: `is_valid_table_name` uses Rust's Unicode-aware
`char::is_alphanumeric`, so the one-character name `"é"` (U+00E9, a Unicode
letter outside `[A-Za-z0-9_]`) is accepted and `ensure_table` proceeds,
while the claim requires it to fail.  The abstract alphanumeric predicate
is instantiated with `latin1IsAlphanumeric`, which agrees with the stdlib
on every character of the evaluated strings. -/
theorem C7_counterexample :
    is_valid_table_name latin1IsAlphanumeric "é" = true ∧
    specValidTableName "é" = false ∧
    ensureTableGate latin1IsAlphanumeric "é" = .ok () := by
  refine ⟨by decide, by decide, ?_⟩
  rfl

/-- C7 (amended): for any alphanumeric predicate that accepts the ASCII
digits and letters — as Rust `char::is_alphanumeric` does — the validator
accepts every name matching `[A-Za-z0-9_]+` and rejects the empty name and
any name containing a character that is neither alphanumeric nor `_`; but
the accepted set is strictly larger than `[A-Za-z0-9_]+`, since
non-ASCII Unicode letters such as `é` are alphanumeric (see the
counterexample). -/
theorem C7_table_name_validation_amended (isAlphanumeric : Char → Bool)
    (hascii : ∀ c : Char, asciiAlphanumChar c = true →
      isAlphanumeric c = true) :
    (∀ name : String, specValidTableName name = true →
      is_valid_table_name isAlphanumeric name = true) ∧
    is_valid_table_name isAlphanumeric "" = false ∧
    (∀ (name : String) (c : Char), c ∈ name.toList →
      isAlphanumeric c = false → c ≠ '_' →
      is_valid_table_name isAlphanumeric name = false) := by
  refine ⟨?_, rfl, ?_⟩
  · intro name h
    simp only [specValidTableName, Bool.and_eq_true, List.all_eq_true] at h
    obtain ⟨hne, hall⟩ := h
    simp only [is_valid_table_name, Bool.and_eq_true, List.all_eq_true]
    refine ⟨hne, fun c hc => ?_⟩
    have hw := hall c hc
    simp only [specWordChar, decide_eq_true_eq] at hw
    simp only [Bool.or_eq_true, decide_eq_true_eq]
    rcases hw with h1 | h1 | h1 | h1
    · exact Or.inl (hascii c
        (by simp only [asciiAlphanumChar, decide_eq_true_eq]; tauto))
    · exact Or.inl (hascii c
        (by simp only [asciiAlphanumChar, decide_eq_true_eq]; tauto))
    · exact Or.inl (hascii c
        (by simp only [asciiAlphanumChar, decide_eq_true_eq]; tauto))
    · exact Or.inr h1
  · intro name c hc hra hne
    by_contra h
    simp only [Bool.not_eq_false] at h
    simp only [is_valid_table_name, Bool.and_eq_true, List.all_eq_true] at h
    have hp := h.2 c hc
    simp only [Bool.or_eq_true, decide_eq_true_eq] at hp
    rcases hp with h1 | h1
    · simp [hra] at h1
    · exact hne h1

/-- `latin1IsAlphanumeric` accepts the ASCII digits and letters, so it
satisfies the hypothesis of `C7_table_name_validation_amended` (as the real
`char::is_alphanumeric` does). -/
theorem latin1_accepts_ascii_alphanum :
    ∀ c : Char, asciiAlphanumChar c = true →
      latin1IsAlphanumeric c = true := by
  intro c h
  simp only [asciiAlphanumChar, decide_eq_true_eq] at h
  simp only [latin1IsAlphanumeric, decide_eq_true_eq]
  tauto

/-- Witness for `C7_table_name_validation_amended`, instantiated at
`latin1IsAlphanumeric` and concrete inputs: `"docs_1"` matches the spec
pattern and is accepted; `"a-b"` contains `-` (neither alphanumeric nor
underscore) and is rejected. -/
theorem C7_table_name_validation_amended_witness :
    (∀ c : Char, asciiAlphanumChar c = true →
      latin1IsAlphanumeric c = true) ∧
    specValidTableName "docs_1" = true ∧
    is_valid_table_name latin1IsAlphanumeric "docs_1" = true ∧
    is_valid_table_name latin1IsAlphanumeric "a-b" = false :=
  ⟨latin1_accepts_ascii_alphanum, by decide,
    (C7_table_name_validation_amended latin1IsAlphanumeric
      latin1_accepts_ascii_alphanum).1 "docs_1" (by decide),
    (C7_table_name_validation_amended latin1IsAlphanumeric
      latin1_accepts_ascii_alphanum).2.2 "a-b" '-' (by decide) (by decide)
      (by decide)⟩

/-! ## C10: list_databases -/

/-- C10 is right about the intended behaviour and the source deviates:
`DocumentStore::list_databases` scans the hard-coded relative directory
`"data"` and never consults the store's `base_dir`.  For a store
constructed with `base_dir = "mydata"` whose directory holds `mydata/a.db`,
the source returns `[]` while the claimed (and specification-assigned)
semantics returns `["a"]`.  The spec itself flags this source discrepancy
as a bug. -/
theorem C10_list_databases_bug :
    list_databases [⟨"mydata", "a", "db"⟩] = [] ∧
    specListDatabases "mydata" [⟨"mydata", "a", "db"⟩] = ["a"] ∧
    list_databases [⟨"data", "a", "db"⟩, ⟨"data", "global", "db"⟩]
      = ["a"] := by
  refine ⟨rfl, ?_, ?_⟩ <;> rfl

/-! ## C4: embedding-cache scoping (counterexample) -/

/-- C4 fails as stated: the disk table's primary key is `content_hash`
alone and `put`'s `ON CONFLICT` clause overwrites `vector` and
`created_at` but not `model`.  History (chronological order): a cache
configured with model `M` puts vector `[1]` for content `c`; a cache
configured with model `N` then puts `[2]` for the same content, which
overwrites the vector in place while the row keeps its `M` tag.  A fresh
cache configured with `M` (empty memory tier) now gets `[2]` for `c` — a
vector that was put under model `N`, which the claim says is never
returned.  (`id` stands in for the SHA-256 content hash; only its
injectivity on the two contents matters.) -/
theorem C4_counterexample :
    EmbeddingCache.get id "M" []
        (runPuts id [⟨"N", "c", [2]⟩, ⟨"M", "c", [1]⟩]) "c" = some [2] ∧
    ([2] : List ℚ) ≠ [1] := by
  refine ⟨rfl, by decide⟩

/-! ## C8: parallel embedder (counterexample) -/

/-- C8 fails as stated: `embed_parallel` drains a `FuturesUnordered`, which
yields spawned tasks in *completion* order, not submission order.  With
`batch_size = 1`, texts `["a", "b"]` (embedding to `[1]` and `[2]`), and
the realizable schedule in which the second batch completes first
(`order = [1, 0]`, a permutation of the batch indices — any such order can
occur once `max_workers ≥ 2`), the call returns `[[2], [1]]` instead of
the input-ordered `[[1], [2]]` the claim requires. -/
theorem C8_counterexample :
    embed_parallel (fun s => if s = "a" then .ok [1] else .ok [2]) 1
        ["a", "b"] [1, 0] = .ok [[2], [1]] ∧
    ([1, 0] : List Nat).Perm
      (List.range (listChunks 1 ["a", "b"]).length) ∧
    ([[2], [1]] : List (List ℚ)) ≠ [[1], [2]] := by
  refine ⟨rfl, by decide, by decide⟩

/-! ## C5: delete_document_by_id -/

/-- The deleted set only grows across a cascade step. -/
theorem mem_cascadeStep_of_mem {table : List DocRow} {deleted : List String}
    {a : String} (h : a ∈ deleted) : a ∈ cascadeStep table deleted :=
  List.mem_append_left _ h

/-- The deleted set only grows across any number of cascade steps. -/
theorem mem_cascadeStep_iterate {table : List DocRow} {a : String}
    (n : Nat) (s : List String) (h : a ∈ s) :
    a ∈ (cascadeStep table)^[n] s := by
  induction n generalizing s with
  | zero => simpa using h
  | succ n ih =>
    rw [Function.iterate_succ_apply]
    exact ih _ (mem_cascadeStep_of_mem h)

/-- A row of the table whose parent is already deleted is deleted by the
next cascade step. -/
theorem child_mem_cascadeStep {table : List DocRow} {deleted : List String}
    {r : DocRow} {p : String} (hr : r ∈ table) (hp : r.parentId = some p)
    (hd : p ∈ deleted) : r.id ∈ cascadeStep table deleted := by
  by_cases hin : r.id ∈ deleted
  · exact mem_cascadeStep_of_mem hin
  · refine List.mem_append_right _ ?_
    refine List.mem_map.mpr ⟨r, List.mem_filter.mpr ⟨hr, ?_⟩, rfl⟩
    simp only [hp]
    simp
    exact ⟨hin, hd⟩

/-- C5: `delete_document_by_id` refuses to delete a document whose
`parent_id` is non-null (and leaves the table untouched); deleting a
document with null `parent_id` removes its row, and the cascading foreign
key leaves no row whose `parent_id` equals the deleted id. -/
theorem C5_delete_document (table : List DocRow) (docId : String)
    (row : DocRow) (hfind : table.find? (fun r => r.id = docId) = some row) :
    (row.parentId.isSome →
      (delete_document_by_id table docId).1.isSome = true ∧
      (delete_document_by_id table docId).2 = table) ∧
    (row.parentId = none →
      (delete_document_by_id table docId).1 = none ∧
      ∀ r ∈ (delete_document_by_id table docId).2,
        r.id ≠ docId ∧ r.parentId ≠ some docId) := by
  have hmem : row ∈ table := List.mem_of_find?_eq_some hfind
  have hlen : table.length = (table.length - 1) + 1 := by
    cases table with
    | nil => simp at hmem
    | cons a as => simp
  have hdocId : docId ∈ deletedClosure table docId := by
    exact mem_cascadeStep_iterate _ _ (by simp)
  constructor
  · intro hps
    obtain ⟨p, hp⟩ := Option.isSome_iff_exists.mp hps
    simp [delete_document_by_id, hfind, hp]
  · intro hpn
    have hres : delete_document_by_id table docId =
        (none, sqlDeleteCascade table docId) := by
      simp only [delete_document_by_id, hfind, hpn]
    rw [hres]
    refine ⟨rfl, fun r hr => ?_⟩
    simp only [sqlDeleteCascade, List.mem_filter, Bool.not_eq_eq_eq_not,
      Bool.not_true, decide_eq_false_iff_not] at hr
    obtain ⟨hrt, hdead0⟩ := hr
    have hdead : r.id ∉ deletedClosure table docId := by simpa using hdead0
    constructor
    · intro heq
      exact hdead (heq ▸ hdocId)
    · intro hpar
      have hprev : docId ∈ (cascadeStep table)^[table.length - 1] [docId] :=
        mem_cascadeStep_iterate _ _ (by simp)
      have : r.id ∈ deletedClosure table docId := by
        unfold deletedClosure
        rw [hlen, Function.iterate_succ_apply']
        exact child_mem_cascadeStep hrt hpar hprev
      exact hdead this

/-- Witness for `C5_delete_document`: a parent `P` with one chunk; deleting
`P` succeeds and no row pointing at `P` remains. -/
theorem C5_delete_document_witness :
    ([⟨"P", "x", none⟩, ⟨"c0", "y", some "P"⟩] : List DocRow).find?
      (fun r => r.id = "P") = some ⟨"P", "x", none⟩ ∧
    (delete_document_by_id [⟨"P", "x", none⟩, ⟨"c0", "y", some "P"⟩] "P").1
      = none ∧
    ∀ r ∈ (delete_document_by_id
        [⟨"P", "x", none⟩, ⟨"c0", "y", some "P"⟩] "P").2,
      r.id ≠ "P" ∧ r.parentId ≠ some "P" := by
  have h := (C5_delete_document [⟨"P", "x", none⟩, ⟨"c0", "y", some "P"⟩]
    "P" ⟨"P", "x", none⟩ (by decide)).2 rfl
  exact ⟨by decide, h.1, h.2⟩

/-! ## C9: BFS traversal -/

/-- Neighbours are nodes of the graph. -/
theorem graphNeighbors_subset_nodes {rels : List DocumentRelation}
    {n x : String} (h : x ∈ graphNeighbors rels n) : x ∈ graphNodes rels := by
  simp only [graphNeighbors, List.mem_map, List.mem_filter] at h
  obtain ⟨r, ⟨hr, _⟩, hx⟩ := h
  subst hx
  induction rels with
  | nil => simp at hr
  | cons a as ih =>
    simp only [graphNodes, List.foldr_cons]
    rcases List.mem_cons.mp hr with h1 | h1
    · subst h1; simp
    · simp only [List.mem_cons]
      exact Or.inr (Or.inr (ih h1))

/-- The inner neighbour loop only adds graph nodes to the accumulator. -/
theorem bfsVisitNeighbors_subset {N : String → Prop} (depth : Nat)
    (nbs : List String) (acc : BfsAcc)
    (hn : ∀ x ∈ nbs, N x) (hv : ∀ x ∈ acc.visited, N x)
    (hl : ∀ x ∈ acc.nextLayer, N x) :
    (∀ x ∈ (bfsVisitNeighbors depth nbs acc).visited, N x) ∧
    (∀ x ∈ (bfsVisitNeighbors depth nbs acc).nextLayer, N x) := by
  induction nbs generalizing acc with
  | nil => exact ⟨hv, hl⟩
  | cons nb rest ih =>
    have hnb : N nb := hn nb (by simp)
    have hrest : ∀ x ∈ rest, N x := fun x hx => hn x (by simp [hx])
    simp only [bfsVisitNeighbors]
    split
    · exact ih acc hrest hv hl
    · refine ih _ hrest ?_ ?_
      · intro x hx
        rcases List.mem_append.mp hx with h1 | h1
        · exact hv x h1
        · simp only [List.mem_singleton] at h1; exact h1 ▸ hnb
      · intro x hx
        rcases List.mem_append.mp hx with h1 | h1
        · exact hl x h1
        · simp only [List.mem_singleton] at h1; exact h1 ▸ hnb

/-- The per-level loop only adds graph nodes to the accumulator. -/
theorem bfsVisitLayer_subset {N : String → Prop}
    (adj : String → List String) (depth : Nat)
    (layer : List String) (acc : BfsAcc)
    (hadj : ∀ n, ∀ x ∈ adj n, N x) (hv : ∀ x ∈ acc.visited, N x)
    (hl : ∀ x ∈ acc.nextLayer, N x) :
    (∀ x ∈ (bfsVisitLayer adj depth layer acc).visited, N x) ∧
    (∀ x ∈ (bfsVisitLayer adj depth layer acc).nextLayer, N x) := by
  induction layer generalizing acc with
  | nil => exact ⟨hv, hl⟩
  | cons n rest ih =>
    simp only [bfsVisitLayer]
    have h2 := bfsVisitNeighbors_subset (N := N) depth (adj n) acc
      (hadj n) hv hl
    exact ih _ h2.1 h2.2

/-- Every id visited by the BFS loop is a graph node, provided the seeds
are. -/
theorem bfsLoop_subset {N : String → Prop} (adj : String → List String)
    (remaining depth : Nat) (layer visited : List String)
    (depthMap : List (String × Nat))
    (hadj : ∀ n, ∀ x ∈ adj n, N x) (hlay : ∀ x ∈ layer, N x)
    (hv : ∀ x ∈ visited, N x) :
    ∀ x ∈ (bfsLoop adj remaining depth layer visited depthMap).1, N x := by
  induction remaining generalizing depth layer visited depthMap with
  | zero => exact hv
  | succ rem ih =>
    simp only [bfsLoop]
    split
    · exact hv
    · have h2 := bfsVisitLayer_subset (N := N) adj depth layer
        ⟨visited, depthMap, []⟩ hadj hv (by simp)
      exact ih _ _ _ _ h2.2 h2.1

/-- C9: nodes that occur in no (filtered) relation are never visited by
`traverse_bfs` — in particular, when such a node is visited it can only be
the start node with result `[start]` (vacuously, since even the start is
dropped in that case) — and a start id entirely absent from the filtered
relations yields the empty result. -/
theorem C9_bfs_absent_nodes (startId : String)
    (relations : List DocumentRelation) (maxDepth : Nat)
    (filter : Option (List String)) :
    (startId ∉ graphNodes (filterRelations relations filter) →
      (traverse_bfs startId relations maxDepth filter).documentIds = []) ∧
    (∀ n ∈ (traverse_bfs startId relations maxDepth filter).documentIds,
      n ∉ graphNodes (filterRelations relations filter) →
      n = startId ∧
      (traverse_bfs startId relations maxDepth filter).documentIds
        = [startId]) := by
  constructor
  · intro habs
    simp only [traverse_bfs]
    rw [if_neg habs]
  · intro n hn habs
    by_cases hs : startId ∈ graphNodes (filterRelations relations filter)
    · exfalso
      have hsub : ∀ x ∈ (traverse_bfs startId relations maxDepth
          filter).documentIds,
          x ∈ graphNodes (filterRelations relations filter) := by
        simp only [traverse_bfs, if_pos hs]
        exact bfsLoop_subset _ _ _ _ _ _
          (fun m x hx => graphNeighbors_subset_nodes hx)
          (by intro x hx; simp only [List.mem_singleton] at hx;
              exact hx ▸ hs)
          (by intro x hx; simp only [List.mem_singleton] at hx;
              exact hx ▸ hs)
      exact habs (hsub n hn)
    · exfalso
      have : (traverse_bfs startId relations maxDepth filter).documentIds
          = [] := by
        simp only [traverse_bfs]
        rw [if_neg hs]
      rw [this] at hn
      simp at hn

/-- Witness for `C9_bfs_absent_nodes`: start `"A"` does not occur in the
single relation `B → C`, so the traversal is empty. -/
theorem C9_bfs_absent_nodes_witness :
    "A" ∉ graphNodes (filterRelations [⟨"r1", "B", "C", "refs", [], 0⟩]
      none) ∧
    (traverse_bfs "A" [⟨"r1", "B", "C", "refs", [], 0⟩] 2
      none).documentIds = [] :=
  ⟨by decide,
    (C9_bfs_absent_nodes "A" [⟨"r1", "B", "C", "refs", [], 0⟩] 2 none).1
      (by decide)⟩

/-! ## C4: embedding-cache scoping (amended) -/

/-- `find?` commutes with a map that does not change the predicate's
verdict. -/
theorem find?_map_of_pred_invariant {α : Type} {p : α → Bool} {f : α → α}
    (h : ∀ x, p (f x) = p x) :
    ∀ l : List α, (l.map f).find? p = (l.find? p).map f := by
  intro l
  induction l with
  | nil => rfl
  | cons a as ih =>
    simp only [List.map_cons, List.find?_cons]
    rw [h a]
    cases hpa : p a
    · exact ih
    · rfl

/-- C4 (amended): disk lookups are scoped by `(content_hash, model)` in the
sense that `get` under model `M` only returns the vector of a row whose
model tag is `M`; and as long as a content is only ever `put` by caches
configured with one single model `M`, a fresh cache (empty memory tier)
configured with `M` can only get back a vector that was actually put for
that content under `M`.  The unrestricted claim fails (see the
counterexample) because a `put` under a different model overwrites the
vector of the existing row while the row keeps its original model tag. -/
theorem C4_cache_scoping_amended
    (hashContent : String → String) (hinj : Function.Injective hashContent)
    (modelName c : String) (events : List PutEvent)
    (hone : ∀ e ∈ events, e.content = c → e.model = modelName)
    (v : List ℚ)
    (hget : EmbeddingCache.get hashContent modelName []
      (runPuts hashContent events) c = some v) :
    PutEvent.mk modelName c v ∈ events := by
  have hform : ∀ disk : List DiskCacheRow,
      EmbeddingCache.get hashContent modelName [] disk c =
        (disk.find? (fun r => decide (r.contentHash = hashContent c ∧
          r.model = modelName))).map DiskCacheRow.vector := by
    intro disk
    simp only [EmbeddingCache.get, List.lookup_nil]
    cases disk.find? (fun r => decide (r.contentHash = hashContent c ∧
      r.model = modelName)) <;> rfl
  induction events with
  | nil =>
    rw [hform] at hget
    simp [runPuts] at hget
  | cons e es ih =>
    have hone2 : ∀ e2 ∈ es, e2.content = c → e2.model = modelName :=
      fun e2 h2 => hone e2 (List.mem_cons_of_mem _ h2)
    rw [hform] at hget
    simp only [runPuts, EmbeddingCache.putDisk] at hget
    by_cases hany : (runPuts hashContent es).any
        (fun r => r.contentHash = hashContent e.content)
    · rw [if_pos hany] at hget
      have hinv : ∀ x : DiskCacheRow,
          (fun r : DiskCacheRow =>
            decide (r.contentHash = hashContent c ∧ r.model = modelName))
            ((fun r : DiskCacheRow =>
              if r.contentHash = hashContent e.content then
                { r with vector := e.vector, createdAt := es.length }
              else r) x) =
          (fun r : DiskCacheRow =>
            decide (r.contentHash = hashContent c ∧ r.model = modelName))
            x := by
        intro x
        by_cases hx : x.contentHash = hashContent e.content <;> simp [hx]
      rw [find?_map_of_pred_invariant hinv] at hget
      cases hD : (runPuts hashContent es).find?
          (fun r => decide (r.contentHash = hashContent c ∧
            r.model = modelName)) with
      | none => rw [hD, Option.map_none'] at hget; exact absurd hget (by simp)
      | some r =>
        rw [hD] at hget
        have hpr := List.find?_some hD
        simp only [decide_eq_true_eq] at hpr
        rw [Option.map_some'] at hget
        by_cases heq : hashContent e.content = hashContent c
        · have hupd : r.contentHash = hashContent e.content := by
            rw [hpr.1, heq]
          rw [if_pos hupd] at hget
          have hgv : e.vector = v := Option.some.inj hget
          have hc : e.content = c := hinj heq
          have hm : e.model = modelName := hone e (by simp) hc
          have he : e = PutEvent.mk modelName c v := by
            cases e
            simp only [PutEvent.mk.injEq]
            exact ⟨hm, hc, hgv⟩
          rw [← he]
          exact List.mem_cons_self _ _
        · have hne : r.contentHash ≠ hashContent e.content := by
            rw [hpr.1]
            exact fun hcon => heq hcon.symm
          rw [if_neg hne] at hget
          refine List.mem_cons_of_mem _ (ih hone2 ?_)
          rw [hform, hD]
          simpa using hget
    · rw [if_neg hany] at hget
      rw [List.find?_append] at hget
      by_cases heq : hashContent e.content = hashContent c
      · have hnone : (runPuts hashContent es).find?
            (fun r => decide (r.contentHash = hashContent c ∧
              r.model = modelName)) = none := by
          rw [List.find?_eq_none]
          intro r hr
          simp only [List.any_eq_true, not_exists, not_and] at hany
          have hno := hany r hr
          simp only [decide_eq_true_eq] at hno
          simp only [decide_eq_true_eq, not_and]
          intro hcon
          exact absurd (by rw [hcon, heq]) hno
        rw [hnone] at hget
        have hc : e.content = c := hinj heq
        have hm : e.model = modelName := hone e (by simp) hc
        have hsingle : (List.find?
            (fun r => decide (r.contentHash = hashContent c ∧
              r.model = modelName))
            [(⟨hashContent e.content, e.vector, e.model, es.length⟩ :
              DiskCacheRow)]) =
            some ⟨hashContent e.content, e.vector, e.model, es.length⟩ := by
          simp [heq, hm]
        rw [hsingle, Option.none_or, Option.map_some'] at hget
        have hgv : e.vector = v := Option.some.inj hget
        have he : e = PutEvent.mk modelName c v := by
          cases e
          simp only [PutEvent.mk.injEq]
          exact ⟨hm, hc, hgv⟩
        rw [← he]
        exact List.mem_cons_self _ _
      · have hnew : (List.find?
            (fun r => decide (r.contentHash = hashContent c ∧
              r.model = modelName))
            [(⟨hashContent e.content, e.vector, e.model, es.length⟩ :
              DiskCacheRow)]) = none := by
          simp [heq]
        rw [hnew] at hget
        refine List.mem_cons_of_mem _ (ih hone2 ?_)
        rw [hform]
        simpa using hget

/-- Witness for `C4_cache_scoping_amended`: a single put of `[5]` for
content `"c"` under model `"M"`; a fresh `M`-cache gets `[5]` back and the
theorem traces it to that put. -/
theorem C4_cache_scoping_amended_witness :
    EmbeddingCache.get id "M" []
        (runPuts id [⟨"M", "c", [5]⟩]) "c" = some [5] ∧
    PutEvent.mk "M" "c" [5] ∈ ([⟨"M", "c", [5]⟩] : List PutEvent) :=
  ⟨rfl,
    C4_cache_scoping_amended id (fun a b h => h) "M" "c" [⟨"M", "c", [5]⟩]
      (by decide) [5] rfl⟩

/-! ## C8: parallel embedder (amended) -/

/-- With a positive batch size and enough fuel, the batches concatenate
back to the input. -/
theorem listChunksGo_flatten {batchSize : Nat} (hbs : 0 < batchSize) :
    ∀ (fuel : Nat) (l : List String), l.length ≤ fuel →
      (listChunksGo batchSize fuel l).flatten = l := by
  intro fuel
  induction fuel with
  | zero =>
    intro l hl
    have : l = [] := List.eq_nil_of_length_eq_zero (by omega)
    subst this
    rfl
  | succ n ih =>
    intro l hl
    by_cases hemp : l.isEmpty = true
    · have : l = [] := by simpa using hemp
      subst this
      rfl
    · have hemp2 : l.isEmpty = false := by simpa using hemp
      have hbs0 : batchSize ≠ 0 := by omega
      simp only [listChunksGo, hemp2, Bool.false_eq_true, if_false,
        if_neg hbs0, List.flatten_cons]
      have hlen : (l.drop batchSize).length ≤ n := by
        simp only [List.length_drop]
        have : 0 < l.length := by
          cases l with
          | nil => simp at hemp2
          | cons a as => simp
        omega
      rw [ih _ hlen, List.take_append_drop]

/-- The batches of `slice::chunks` concatenate back to the input. -/
theorem listChunks_flatten {batchSize : Nat} (hbs : 0 < batchSize)
    (l : List String) : (listChunks batchSize l).flatten = l :=
  listChunksGo_flatten hbs l.length l le_rfl

/-- `embed_batch` on a batch of texts that all embed successfully returns
their embeddings in batch order. -/
theorem embed_batch_ok (embedText : String → Except String (List ℚ))
    (b : List String) (h : ∀ t ∈ b, ∃ v, embedText t = .ok v) :
    embed_batch embedText b =
      .ok (b.map (fun t => ((embedText t).toOption).getD [])) := by
  induction b with
  | nil => rfl
  | cons t ts ih =>
    obtain ⟨v, hv⟩ := h t (by simp)
    have hts := ih (fun t2 h2 => h t2 (by simp [h2]))
    simp [embed_batch, hv, hts, Except.toOption]

/-- A failing `embed_batch` fails with the error of one of its texts. -/
theorem embed_batch_error (embedText : String → Except String (List ℚ))
    (b : List String) (err : String)
    (h : embed_batch embedText b = .error err) :
    ∃ t ∈ b, embedText t = .error err := by
  induction b with
  | nil => simp [embed_batch] at h
  | cons t ts ih =>
    cases ht : embedText t with
    | error e =>
      simp only [embed_batch, ht] at h
      have he : e = err := Except.error.inj h
      exact ⟨t, by simp, by rw [ht, he]⟩
    | ok v =>
      cases hts : embed_batch embedText ts with
      | error e =>
        simp only [embed_batch, ht, hts] at h
        have he : e = err := Except.error.inj h
        obtain ⟨t2, h2, h3⟩ := ih (by rw [hts, he])
        exact ⟨t2, by simp [h2], h3⟩
      | ok vs => simp [embed_batch, ht, hts] at h

/-- A batch containing a failing text makes `embed_batch` fail. -/
theorem embed_batch_error_of_mem
    (embedText : String → Except String (List ℚ)) (b : List String)
    (h : ∃ t ∈ b, ∃ err, embedText t = .error err) :
    ∃ err, embed_batch embedText b = .error err := by
  induction b with
  | nil => simp at h
  | cons t ts ih =>
    cases ht : embedText t with
    | error e => exact ⟨e, by simp [embed_batch, ht]⟩
    | ok v =>
      obtain ⟨t2, h2, e2, he2⟩ := h
      rcases List.mem_cons.mp h2 with h3 | h3
      · subst h3; rw [ht] at he2; exact absurd he2 (by simp)
      · obtain ⟨e3, he3⟩ := ih ⟨t2, h3, e2, he2⟩
        exact ⟨e3, by simp [embed_batch, ht, he3]⟩

/-- Collecting a list of successful task results concatenates them in
collection order. -/
theorem collectTasks_ok (vss : List (List (List ℚ))) :
    collectTasks (vss.map Except.ok) = .ok vss.flatten := by
  induction vss with
  | nil => rfl
  | cons v vs ih => simp [collectTasks, ih]

/-- When some task failed, the collection loop fails with the error of one
of the tasks. -/
theorem collectTasks_error (rs : List (Except String (List (List ℚ))))
    (h : ∃ r ∈ rs, ∃ e, r = .error e) :
    ∃ e, collectTasks rs = .error e ∧ Except.error e ∈ rs := by
  induction rs with
  | nil => simp at h
  | cons r rest ih =>
    cases hr : r with
    | error e => exact ⟨e, by simp [collectTasks, hr], by simp [hr]⟩
    | ok v =>
      obtain ⟨r2, h2, e2, he2⟩ := h
      rcases List.mem_cons.mp h2 with h3 | h3
      · subst h3; rw [hr] at he2; exact absurd he2 (by simp)
      · obtain ⟨e3, he3, hmem⟩ := ih ⟨r2, h3, e2, he2⟩
        refine ⟨e3, ?_, by simp [hmem]⟩
        simp [collectTasks, hr, he3]

/-- Reading a list back off through `getD` over its index range is the
identity. -/
theorem range_map_getD (L : List (List String)) (d : List String) :
    (List.range L.length).map (fun i => L.getD i d) = L := by
  induction L with
  | nil => rfl
  | cons b L ih =>
    have hmm : ((List.range L.length).map Nat.succ).map
        (fun i => (b :: L).getD i d) =
        (List.range L.length).map (fun i => L.getD i d) := by
      rw [List.map_map]
      exact List.map_congr_left (fun i hi => rfl)
    rw [List.length_cons, List.range_succ_eq_map, List.map_cons, hmm, ih]
    rfl

/-- C8 (amended): `embed_parallel` partitions the texts into batches of up
to `batch_size` and returns one embedding per input text — but in the
*completion* order of the batch tasks, not necessarily the input order of
batches (see the counterexample); the multiset of returned embeddings is
exactly the embeddings of the inputs, within each batch in the embedder's
sequential order, and a failure in any task aborts the whole call with an
error raised by one of the texts. -/
theorem C8_embed_parallel_amended
    (embedText : String → Except String (List ℚ)) (batchSize : Nat)
    (texts : List String) (order : List Nat) (hbs : 0 < batchSize)
    (hperm : order.Perm (List.range (listChunks batchSize texts).length)) :
    ((∀ t ∈ texts, ∃ v, embedText t = .ok v) →
      ∃ vs, embed_parallel embedText batchSize texts order = .ok vs ∧
        vs.length = texts.length ∧
        vs.Perm (texts.map (fun t => ((embedText t).toOption).getD []))) ∧
    ((∃ t ∈ texts, ∃ err, embedText t = .error err) →
      ∃ err, embed_parallel embedText batchSize texts order = .error err ∧
        ∃ t ∈ texts, embedText t = .error err) := by
  have hflat : (listChunks batchSize texts).flatten = texts :=
    listChunks_flatten hbs texts
  have hbatch_mem : ∀ i ∈ order,
      (listChunks batchSize texts).getD i [] ∈ listChunks batchSize texts := by
    intro i hi
    have hir : i ∈ List.range (listChunks batchSize texts).length :=
      hperm.mem_iff.mp hi
    have hilt : i < (listChunks batchSize texts).length :=
      List.mem_range.mp hir
    rw [List.getD_eq_getElem _ _ hilt]
    exact List.getElem_mem hilt
  have hbatch_sub : ∀ i ∈ order, ∀ t ∈ (listChunks batchSize texts).getD i [],
      t ∈ texts := by
    intro i hi t ht
    rw [← hflat]
    exact List.mem_flatten.mpr ⟨_, hbatch_mem i hi, ht⟩
  have hpdef : embed_parallel embedText batchSize texts order =
      collectTasks (order.map (fun i =>
        embed_batch embedText ((listChunks batchSize texts).getD i []))) :=
    rfl
  constructor
  · intro hok
    have htask : ∀ i ∈ order,
        embed_batch embedText ((listChunks batchSize texts).getD i []) =
          .ok (((listChunks batchSize texts).getD i []).map
            (fun t => ((embedText t).toOption).getD [])) := by
      intro i hi
      exact embed_batch_ok _ _ (fun t ht => hok t (hbatch_sub i hi t ht))
    have hp : ((order.map (fun i =>
        ((listChunks batchSize texts).getD i []).map
          (fun t => ((embedText t).toOption).getD []))).flatten).Perm
        (texts.map (fun t => ((embedText t).toOption).getD [])) := by
      have h1 := (hperm.map (fun i =>
        ((listChunks batchSize texts).getD i []).map
          (fun t => ((embedText t).toOption).getD []))).flatten
      have h3 : (List.range (listChunks batchSize texts).length).map
          (fun i => ((listChunks batchSize texts).getD i []).map
            (fun t => ((embedText t).toOption).getD [])) =
          (listChunks batchSize texts).map
            (List.map (fun t => ((embedText t).toOption).getD [])) := by
        have h4 := range_map_getD (listChunks batchSize texts) []
        conv_rhs => rw [← h4]
        rw [List.map_map]
        exact List.map_congr_left (fun i hi => rfl)
      rw [h3] at h1
      have h5 : ((listChunks batchSize texts).map
          (List.map (fun t => ((embedText t).toOption).getD []))).flatten =
          texts.map (fun t => ((embedText t).toOption).getD []) := by
        rw [← List.map_flatten, hflat]
      rw [h5] at h1
      exact h1
    refine ⟨(order.map (fun i => ((listChunks batchSize texts).getD i []).map
      (fun t => ((embedText t).toOption).getD []))).flatten, ?_, ?_, hp⟩
    · rw [hpdef]
      have hmapeq : order.map (fun i =>
          embed_batch embedText ((listChunks batchSize texts).getD i [])) =
          (order.map (fun i => ((listChunks batchSize texts).getD i []).map
            (fun t => ((embedText t).toOption).getD []))).map Except.ok := by
        rw [List.map_map]
        exact List.map_congr_left (fun i hi => by rw [htask i hi]; rfl)
      rw [hmapeq, collectTasks_ok]
    · rw [hp.length_eq, List.length_map]
  · intro hfail
    obtain ⟨t, ht, err0, herr⟩ := hfail
    have ht2 : t ∈ (listChunks batchSize texts).flatten := by
      rw [hflat]; exact ht
    obtain ⟨b, hb, htb⟩ := List.mem_flatten.mp ht2
    obtain ⟨i, hilt, hbi⟩ := List.mem_iff_getElem.mp hb
    have hio : i ∈ order := hperm.mem_iff.mpr (List.mem_range.mpr hilt)
    have hgetD : (listChunks batchSize texts).getD i [] = b := by
      rw [List.getD_eq_getElem _ _ hilt, hbi]
    obtain ⟨e1, he1⟩ := embed_batch_error_of_mem embedText b
      ⟨t, htb, err0, herr⟩
    have htaskmem : Except.error e1 ∈ order.map (fun j =>
        embed_batch embedText ((listChunks batchSize texts).getD j [])) := by
      refine List.mem_map.mpr ⟨i, hio, ?_⟩
      rw [hgetD, he1]
    obtain ⟨e2, hcoll, hmem2⟩ := collectTasks_error _ ⟨_, htaskmem, e1, rfl⟩
    obtain ⟨j, hjo, hje⟩ := List.mem_map.mp hmem2
    obtain ⟨t2, ht2b, ht2e⟩ := embed_batch_error embedText _ e2 hje
    exact ⟨e2, by rw [hpdef]; exact hcoll,
      t2, hbatch_sub j hjo t2 ht2b, ht2e⟩

/-- Witness for `C8_embed_parallel_amended`: two texts, singleton batches,
the second batch completing first. -/
theorem C8_embed_parallel_amended_witness :
    (0 : Nat) < 1 ∧
    ([1, 0] : List Nat).Perm
      (List.range (listChunks 1 ["a", "b"]).length) ∧
    ((∀ t ∈ (["a", "b"] : List String), ∃ v,
        (fun (_ : String) => (Except.ok [3] : Except String (List ℚ))) t
          = .ok v) →
      ∃ vs, embed_parallel
          (fun (_ : String) => (Except.ok [3] : Except String (List ℚ)))
          1 ["a", "b"] [1, 0] = .ok vs ∧
        vs.length = (["a", "b"] : List String).length ∧
        vs.Perm ((["a", "b"] : List String).map (fun t =>
          (((fun (_ : String) =>
            (Except.ok [3] : Except String (List ℚ))) t).toOption).getD
              []))) ∧
    ((∃ t ∈ (["a", "b"] : List String), ∃ err,
        (fun (_ : String) => (Except.ok [3] : Except String (List ℚ))) t
          = .error err) →
      ∃ err, embed_parallel
          (fun (_ : String) => (Except.ok [3] : Except String (List ℚ)))
          1 ["a", "b"] [1, 0] = .error err ∧
        ∃ t ∈ (["a", "b"] : List String),
          (fun (_ : String) => (Except.ok [3] : Except String (List ℚ))) t
            = .error err) :=
  ⟨Nat.one_pos, by decide,
    (C8_embed_parallel_amended
      (fun (_ : String) => (Except.ok [3] : Except String (List ℚ)))
      1 ["a", "b"] [1, 0] Nat.one_pos (by decide)).1,
    (C8_embed_parallel_amended
      (fun (_ : String) => (Except.ok [3] : Except String (List ℚ)))
      1 ["a", "b"] [1, 0] Nat.one_pos (by decide)).2⟩

/-! ## C2: reciprocal rank fusion -/

/-- `any` over keys agrees with `lookup` success. -/
theorem any_key_eq_lookup_isSome (m : List (String × RrfEntry))
    (key : String) :
    m.any (fun p => p.1 = key) = (m.lookup key).isSome := by
  induction m with
  | nil => rfl
  | cons a m ih =>
    by_cases h : a.1 = key
    · have hbeq : (key == a.1) = true := by simp [h]
      simp [List.lookup, h, hbeq]
    · have hbeq : (key == a.1) = false := by
        simp only [beq_eq_false_iff_ne, ne_eq]
        exact fun h2 => h h2.symm
      simp [List.lookup, h, hbeq, ih]

/-- Looking up the upserted key: the entry is modified when present
(core, map branch). -/
theorem lookup_map_update (m : List (String × RrfEntry)) (key : String)
    (modify : RrfEntry → RrfEntry) (e : RrfEntry)
    (h : m.lookup key = some e) :
    (m.map (fun p => if p.1 = key then (key, modify p.2) else p)).lookup key
      = some (modify e) := by
  induction m with
  | nil => simp [List.lookup] at h
  | cons a m ih =>
    by_cases ha : a.1 = key
    · have hbeq : (key == a.1) = true := by simp [ha]
      simp only [List.lookup, hbeq, Option.some_inj] at h
      rw [List.map_cons, if_pos ha]
      simp [List.lookup, h]
    · have hbeq : (key == a.1) = false := by
        simp only [beq_eq_false_iff_ne, ne_eq]
        exact fun h2 => ha h2.symm
      simp only [List.lookup, hbeq] at h
      rw [List.map_cons, if_neg ha]
      simp only [List.lookup, hbeq]
      exact ih h

/-- Lookups at other keys pass through the update map unchanged (core,
map branch). -/
theorem lookup_map_update_ne (m : List (String × RrfEntry)) (key : String)
    (modify : RrfEntry → RrfEntry) (k2 : String) (hne : k2 ≠ key) :
    (m.map (fun p => if p.1 = key then (key, modify p.2) else p)).lookup k2
      = m.lookup k2 := by
  induction m with
  | nil => rfl
  | cons a m ih =>
    by_cases ha : a.1 = key
    · have hbeq : (k2 == a.1) = false := by
        rw [ha]
        simpa [beq_eq_false_iff_ne] using hne
      have hbeq2 : (k2 == key) = false := by
        simpa [beq_eq_false_iff_ne] using hne
      rw [List.map_cons, if_pos ha]
      simp only [List.lookup, hbeq, hbeq2]
      exact ih
    · by_cases hk : k2 = a.1
      · have hbeq : (k2 == a.1) = true := by simp [hk]
        rw [List.map_cons, if_neg ha]
        simp [List.lookup, hbeq]
      · have hbeq : (k2 == a.1) = false := by simp [hk]
        rw [List.map_cons, if_neg ha]
        simp only [List.lookup, hbeq]
        exact ih

/-- Lookup after an append at a key absent from the left part. -/
theorem lookup_append_of_notMem (m : List (String × RrfEntry))
    (key : String) (v : RrfEntry) (h : m.lookup key = none) :
    (m ++ [(key, v)]).lookup key = some v := by
  induction m with
  | nil => simp [List.lookup]
  | cons a m ih =>
    by_cases ha : a.1 = key
    · have hbeq : (key == a.1) = true := by simp [ha]
      simp [List.lookup, hbeq] at h
    · have hbeq : (key == a.1) = false := by
        simp only [beq_eq_false_iff_ne, ne_eq]
        exact fun h2 => ha h2.symm
      simp only [List.lookup, hbeq] at h
      simp only [List.cons_append, List.lookup, hbeq]
      exact ih h

/-- Lookup at another key passes through a singleton append. -/
theorem lookup_append_ne (m : List (String × RrfEntry)) (key : String)
    (v : RrfEntry) (k2 : String) (hne : k2 ≠ key) :
    (m ++ [(key, v)]).lookup k2 = m.lookup k2 := by
  induction m with
  | nil =>
    have hbeq : (k2 == key) = false := by
      simpa [beq_eq_false_iff_ne] using hne
    simp [List.lookup, hbeq]
  | cons a m ih =>
    by_cases hk : k2 = a.1
    · have hbeq : (k2 == a.1) = true := by simp [hk]
      simp [List.cons_append, List.lookup, hbeq]
    · have hbeq : (k2 == a.1) = false := by simp [hk]
      simp only [List.cons_append, List.lookup, hbeq]
      exact ih

/-- `mapUpsert` at the upserted key. -/
theorem lookup_mapUpsert_self (m : List (String × RrfEntry)) (key : String)
    (modify : RrfEntry → RrfEntry) (dflt : RrfEntry) :
    (mapUpsert m key modify dflt).lookup key =
      some (match m.lookup key with
            | some e => modify e
            | none => dflt) := by
  unfold mapUpsert
  rw [any_key_eq_lookup_isSome]
  cases h : m.lookup key with
  | some e =>
    rw [if_pos (by rfl)]
    exact lookup_map_update m key modify e h
  | none =>
    rw [if_neg (by simp)]
    exact lookup_append_of_notMem m key dflt h

/-- `mapUpsert` at any other key. -/
theorem lookup_mapUpsert_ne (m : List (String × RrfEntry)) (key : String)
    (modify : RrfEntry → RrfEntry) (dflt : RrfEntry) (k2 : String)
    (hne : k2 ≠ key) :
    (mapUpsert m key modify dflt).lookup k2 = m.lookup k2 := by
  unfold mapUpsert
  split
  · exact lookup_map_update_ne m key modify k2 hne
  · exact lookup_append_ne m key dflt k2 hne

/-- Ids absent from the FTS list look up unchanged through the FTS loop. -/
theorem addFtsRanks_lookup_notMem (k : Nat) (ts : List SearchTuple)
    (i : String) (hni : i ∉ ts.map SearchTuple.id) :
    ∀ (rank : Nat) (m : List (String × RrfEntry)),
      (addFtsRanks k ts rank m).lookup i = m.lookup i := by
  induction ts with
  | nil => intro rank m; rfl
  | cons t ts ih =>
    intro rank m
    simp only [List.map_cons, List.mem_cons, not_or] at hni
    simp only [addFtsRanks]
    rw [ih hni.2]
    exact lookup_mapUpsert_ne m t.id _ _ i hni.1

/-- Ids present in the FTS list end up with the score
`1/(k + rank + 1)` at their zero-based rank. -/
theorem addFtsRanks_lookup_mem (k : Nat) (ts : List SearchTuple)
    (i : String) (hnd : (ts.map SearchTuple.id).Nodup)
    (hi : i ∈ ts.map SearchTuple.id) :
    ∀ (rank : Nat) (m : List (String × RrfEntry)),
      ∃ e, (addFtsRanks k ts rank m).lookup i = some e ∧
        e.score = rrfIncrement k
          (rank + (ts.map SearchTuple.id).indexOf i) := by
  induction ts with
  | nil => simp at hi
  | cons t ts ih =>
    intro rank m
    by_cases hit : i = t.id
    · have hidx : ((t :: ts).map SearchTuple.id).indexOf i = 0 := by
        simp [List.map_cons, hit]
      have hnotm : i ∉ ts.map SearchTuple.id := by
        rw [hit]
        simp only [List.map_cons, List.nodup_cons] at hnd
        exact hnd.1
      refine ⟨ftsEntry k rank t, ?_, ?_⟩
      · simp only [addFtsRanks]
        rw [addFtsRanks_lookup_notMem k ts i hnotm, hit]
        unfold mapInsert
        rw [lookup_mapUpsert_self]
        cases m.lookup t.id <;> rfl
      · rw [hidx]
        simp [ftsEntry]
    · have hits : i ∈ ts.map SearchTuple.id := by
        simp only [List.map_cons, List.mem_cons] at hi
        tauto
      have hnd2 : (ts.map SearchTuple.id).Nodup := by
        simp only [List.map_cons, List.nodup_cons] at hnd
        exact hnd.2
      obtain ⟨e, he, hs⟩ := ih hnd2 hits (rank + 1)
        (mapInsert m t.id (ftsEntry k rank t))
      refine ⟨e, by simpa [addFtsRanks] using he, ?_⟩
      rw [hs]
      congr 1
      have hidx : ((t :: ts).map SearchTuple.id).indexOf i =
          (ts.map SearchTuple.id).indexOf i + 1 := by
        simp only [List.map_cons]
        rw [List.indexOf_cons_ne _ (Ne.symm hit)]
      rw [hidx]
      omega

/-- Ids absent from the vector list look up unchanged through the vector
loop. -/
theorem addVectorRanks_lookup_notMem (k : Nat) (vs : List SearchTuple)
    (i : String) (hni : i ∉ vs.map SearchTuple.id) :
    ∀ (rank : Nat) (m : List (String × RrfEntry)),
      (addVectorRanks k vs rank m).lookup i = m.lookup i := by
  induction vs with
  | nil => intro rank m; rfl
  | cons t vs ih =>
    intro rank m
    simp only [List.map_cons, List.mem_cons, not_or] at hni
    simp only [addVectorRanks]
    rw [ih hni.2]
    exact lookup_mapUpsert_ne m t.id _ _ i hni.1

/-- Ids present in the vector list have their previous score (0 when
absent) incremented by `1/(k + rank + 1)` at their zero-based rank. -/
theorem addVectorRanks_lookup_mem (k : Nat) (vs : List SearchTuple)
    (i : String) (hnd : (vs.map SearchTuple.id).Nodup)
    (hi : i ∈ vs.map SearchTuple.id) :
    ∀ (rank : Nat) (m : List (String × RrfEntry)),
      ∃ e2, (addVectorRanks k vs rank m).lookup i = some e2 ∧
        e2.score = ((m.lookup i).map RrfEntry.score).getD 0 +
          rrfIncrement k (rank + (vs.map SearchTuple.id).indexOf i) := by
  induction vs with
  | nil => simp at hi
  | cons t vs ih =>
    intro rank m
    by_cases hit : i = t.id
    · have hidx : ((t :: vs).map SearchTuple.id).indexOf i = 0 := by
        simp [List.map_cons, hit]
      have hnotm : i ∉ vs.map SearchTuple.id := by
        rw [hit]
        simp only [List.map_cons, List.nodup_cons] at hnd
        exact hnd.1
      rw [hidx]
      simp only [addVectorRanks]
      rw [addVectorRanks_lookup_notMem k vs i hnotm, hit]
      rw [lookup_mapUpsert_self]
      cases hm : m.lookup t.id with
      | some e =>
        refine ⟨vecModify k rank t e, rfl, ?_⟩
        simp [vecModify]
      | none =>
        refine ⟨vecEntry k rank t, rfl, ?_⟩
        simp [vecEntry]
    · have hits : i ∈ vs.map SearchTuple.id := by
        simp only [List.map_cons, List.mem_cons] at hi
        tauto
      have hnd2 : (vs.map SearchTuple.id).Nodup := by
        simp only [List.map_cons, List.nodup_cons] at hnd
        exact hnd.2
      obtain ⟨e2, he2, hs2⟩ := ih hnd2 hits (rank + 1)
        (mapUpsert m t.id (vecModify k rank t) (vecEntry k rank t))
      have hidx : ((t :: vs).map SearchTuple.id).indexOf i =
          (vs.map SearchTuple.id).indexOf i + 1 := by
        simp only [List.map_cons]
        rw [List.indexOf_cons_ne _ (Ne.symm hit)]
      refine ⟨e2, by simpa [addVectorRanks] using he2, ?_⟩
      rw [hs2, lookup_mapUpsert_ne m t.id _ _ i hit, hidx]
      have harg : rank + 1 + (vs.map SearchTuple.id).indexOf i =
          rank + ((vs.map SearchTuple.id).indexOf i + 1) := by omega
      rw [harg]

/-- `mapUpsert` preserves distinctness of the keys. -/
theorem keys_mapUpsert_nodup (m : List (String × RrfEntry)) (key : String)
    (modify : RrfEntry → RrfEntry) (dflt : RrfEntry)
    (h : (m.map Prod.fst).Nodup) :
    ((mapUpsert m key modify dflt).map Prod.fst).Nodup := by
  unfold mapUpsert
  split
  · have heq : (m.map (fun p => if p.1 = key then (key, modify p.2)
        else p)).map Prod.fst = m.map Prod.fst := by
      rw [List.map_map]
      refine List.map_congr_left (fun p hp => ?_)
      by_cases hk : p.1 = key
      · simp [hk]
      · simp [hk]
    rw [heq]
    exact h
  · rename_i hany
    have hnk : key ∉ m.map Prod.fst := by
      intro hmem
      obtain ⟨p, hp, hpk⟩ := List.mem_map.mp hmem
      exact hany (List.any_eq_true.mpr ⟨p, hp, by simp [hpk]⟩)
    rw [List.map_append]
    simp only [List.map_cons, List.map_nil]
    rw [List.nodup_append]
    exact ⟨h, by simp, by simpa [List.disjoint_singleton] using hnk⟩

/-- The FTS loop preserves distinctness of the keys. -/
theorem keys_addFtsRanks_nodup (k : Nat) (ts : List SearchTuple) :
    ∀ (rank : Nat) (m : List (String × RrfEntry)),
      (m.map Prod.fst).Nodup →
      ((addFtsRanks k ts rank m).map Prod.fst).Nodup := by
  induction ts with
  | nil => intro rank m h; exact h
  | cons t ts ih =>
    intro rank m h
    exact ih _ _ (keys_mapUpsert_nodup m t.id _ _ h)

/-- The vector loop preserves distinctness of the keys. -/
theorem keys_addVectorRanks_nodup (k : Nat) (vs : List SearchTuple) :
    ∀ (rank : Nat) (m : List (String × RrfEntry)),
      (m.map Prod.fst).Nodup →
      ((addVectorRanks k vs rank m).map Prod.fst).Nodup := by
  induction vs with
  | nil => intro rank m h; exact h
  | cons t vs ih =>
    intro rank m h
    exact ih _ _ (keys_mapUpsert_nodup m t.id _ _ h)

/-- With distinct keys, every pair of the association list is found by
`lookup`. -/
theorem lookup_of_mem_nodupKeys {m : List (String × RrfEntry)}
    {p : String × RrfEntry} (h : (m.map Prod.fst).Nodup) (hp : p ∈ m) :
    m.lookup p.1 = some p.2 := by
  induction m with
  | nil => simp at hp
  | cons a m ih =>
    rcases List.mem_cons.mp hp with h1 | h1
    · subst h1
      have hbeq : (p.1 == p.1) = true := by simp
      simp [List.lookup, hbeq]
    · simp only [List.map_cons, List.nodup_cons] at h
      have hne : p.1 ≠ a.1 := by
        intro hcon
        exact h.1 (hcon ▸ List.mem_map.mpr ⟨p, h1, rfl⟩)
      have hbeq : (p.1 == a.1) = false := by simpa using hne
      simp only [List.lookup, hbeq]
      exact ih h.2 h1

/-- Membership through stable insertion. -/
theorem mem_stableInsertBy {α : Type} (le : α → α → Bool) (x a : α)
    (l : List α) : a ∈ stableInsertBy le x l ↔ a = x ∨ a ∈ l := by
  induction l with
  | nil => simp [stableInsertBy]
  | cons y ys ih =>
    simp only [stableInsertBy]
    split
    · simp [List.mem_cons]
    · simp only [List.mem_cons, ih]
      tauto

/-- Membership through the stable sort. -/
theorem mem_stableSortBy {α : Type} (le : α → α → Bool) (a : α)
    (l : List α) : a ∈ stableSortBy le l ↔ a ∈ l := by
  induction l with
  | nil => simp [stableSortBy]
  | cons x xs ih =>
    simp only [stableSortBy, mem_stableInsertBy, ih, List.mem_cons]

/-- Each RRF increment is strictly positive. -/
theorem rrfIncrement_pos (k rank : Nat) : 0 < rrfIncrement k rank := by
  unfold rrfIncrement
  positivity

/-- The fused score of every entry of the RRF score map is the sum of the
contributions of the two candidate lists. -/
theorem fusedMap_lookup_score (k : Nat) (fts vec : List SearchTuple)
    (hf : (fts.map SearchTuple.id).Nodup)
    (hv : (vec.map SearchTuple.id).Nodup) (i : String) (e : RrfEntry)
    (h : (addVectorRanks k vec 0 (addFtsRanks k fts 0 [])).lookup i
      = some e) :
    e.score = listContribution k fts i + listContribution k vec i := by
  by_cases hiv : i ∈ vec.map SearchTuple.id
  · obtain ⟨e2, he2, hs2⟩ := addVectorRanks_lookup_mem k vec i hv hiv 0
      (addFtsRanks k fts 0 [])
    rw [h] at he2
    have hee : e = e2 := Option.some.inj he2
    subst hee
    rw [hs2]
    by_cases hif : i ∈ fts.map SearchTuple.id
    · obtain ⟨e1, he1, hs1⟩ := addFtsRanks_lookup_mem k fts i hf hif 0 []
      rw [he1]
      simp only [Option.map_some', Option.getD_some, hs1]
      simp [listContribution, hif, hiv]
    · rw [addFtsRanks_lookup_notMem k fts i hif 0 []]
      simp only [List.lookup_nil, Option.map_none', Option.getD_none]
      simp [listContribution, hif, hiv]
  · rw [addVectorRanks_lookup_notMem k vec i hiv 0 _] at h
    by_cases hif : i ∈ fts.map SearchTuple.id
    · obtain ⟨e1, he1, hs1⟩ := addFtsRanks_lookup_mem k fts i hf hif 0 []
      rw [h] at he1
      have hee : e = e1 := Option.some.inj he1
      subst hee
      rw [hs1]
      simp [listContribution, hif, hiv]
    · rw [addFtsRanks_lookup_notMem k fts i hif 0 []] at h
      simp [List.lookup_nil] at h

/-- C2: with `k = 60` (the constant of `HybridSearcher::new`) and candidate
lists with distinct ids (as produced by the id-keyed SQL queries), every
fused document's score equals the sum, over the lists in which it appears,
of `1/(60 + rank + 1)` at its zero-based rank in that list; consequently a
document ranked in both lists never scores below a document appearing in
only one list whose rank there equals one of the former's ranks. -/
theorem C2_rrf_fused_scores (fts vec : List SearchTuple)
    (hf : (fts.map SearchTuple.id).Nodup)
    (hv : (vec.map SearchTuple.id).Nodup) :
    (∀ r ∈ reciprocal_rank_fusion hybridSearcherK fts vec,
      r.score = listContribution hybridSearcherK fts r.id +
        listContribution hybridSearcherK vec r.id) ∧
    (∀ a ∈ reciprocal_rank_fusion hybridSearcherK fts vec,
     ∀ b ∈ reciprocal_rank_fusion hybridSearcherK fts vec,
      a.id ∈ fts.map SearchTuple.id → a.id ∈ vec.map SearchTuple.id →
      ((b.id ∈ fts.map SearchTuple.id ∧ b.id ∉ vec.map SearchTuple.id ∧
          ((fts.map SearchTuple.id).indexOf b.id =
            (fts.map SearchTuple.id).indexOf a.id ∨
           (fts.map SearchTuple.id).indexOf b.id =
            (vec.map SearchTuple.id).indexOf a.id)) ∨
       (b.id ∈ vec.map SearchTuple.id ∧ b.id ∉ fts.map SearchTuple.id ∧
          ((vec.map SearchTuple.id).indexOf b.id =
            (fts.map SearchTuple.id).indexOf a.id ∨
           (vec.map SearchTuple.id).indexOf b.id =
            (vec.map SearchTuple.id).indexOf a.id))) →
      b.score ≤ a.score) := by
  have hscore : ∀ r ∈ reciprocal_rank_fusion hybridSearcherK fts vec,
      r.score = listContribution hybridSearcherK fts r.id +
        listContribution hybridSearcherK vec r.id := by
    intro r hr
    unfold reciprocal_rank_fusion at hr
    rw [mem_stableSortBy] at hr
    obtain ⟨p, hp, hpr⟩ := List.mem_map.mp hr
    have hkeys : ((addVectorRanks hybridSearcherK vec 0
        (addFtsRanks hybridSearcherK fts 0 [])).map Prod.fst).Nodup :=
      keys_addVectorRanks_nodup _ _ _ _
        (keys_addFtsRanks_nodup _ _ _ _ (by simp))
    have hlk := lookup_of_mem_nodupKeys hkeys hp
    have hsc := fusedMap_lookup_score hybridSearcherK fts vec hf hv p.1 p.2
      hlk
    rw [← hpr]
    exact hsc
  refine ⟨hscore, ?_⟩
  intro a ha b hb haf hav hcond
  have hsa := hscore a ha
  have hsb := hscore b hb
  rw [hsa, hsb]
  simp only [listContribution]
  rw [if_pos haf, if_pos hav]
  rcases hcond with ⟨hbf, hbnv, hbr⟩ | ⟨hbv, hbnf, hbr⟩
  · rw [if_pos hbf, if_neg hbnv, add_zero]
    rcases hbr with h1 | h1 <;> rw [h1]
    · exact le_add_of_nonneg_right (rrfIncrement_pos _ _).le
    · exact le_add_of_nonneg_left (rrfIncrement_pos _ _).le
  · rw [if_pos hbv, if_neg hbnf, zero_add]
    rcases hbr with h1 | h1 <;> rw [h1]
    · exact le_add_of_nonneg_right (rrfIncrement_pos _ _).le
    · exact le_add_of_nonneg_left (rrfIncrement_pos _ _).le

/-- Witness for `C2_rrf_fused_scores`: FTS candidates `A, B` and vector
candidates `A, C`, all ids distinct within each list. -/
theorem C2_rrf_fused_scores_witness :
    (([⟨"A", "ca", [], 1, false, none, none⟩,
       ⟨"B", "cb", [], 2, false, none, none⟩] :
        List SearchTuple).map SearchTuple.id).Nodup ∧
    (([⟨"A", "cA", [], 9/10, false, none, none⟩,
       ⟨"C", "cC", [], 1/2, false, none, none⟩] :
        List SearchTuple).map SearchTuple.id).Nodup ∧
    ∀ r ∈ reciprocal_rank_fusion hybridSearcherK
        [⟨"A", "ca", [], 1, false, none, none⟩,
         ⟨"B", "cb", [], 2, false, none, none⟩]
        [⟨"A", "cA", [], 9/10, false, none, none⟩,
         ⟨"C", "cC", [], 1/2, false, none, none⟩],
      r.score = listContribution hybridSearcherK
        [⟨"A", "ca", [], 1, false, none, none⟩,
         ⟨"B", "cb", [], 2, false, none, none⟩] r.id +
        listContribution hybridSearcherK
        [⟨"A", "cA", [], 9/10, false, none, none⟩,
         ⟨"C", "cC", [], 1/2, false, none, none⟩] r.id :=
  ⟨by decide, by decide,
    (C2_rrf_fused_scores
      [⟨"A", "ca", [], 1, false, none, none⟩,
       ⟨"B", "cb", [], 2, false, none, none⟩]
      [⟨"A", "cA", [], 9/10, false, none, none⟩,
       ⟨"C", "cC", [], 1/2, false, none, none⟩]
      (by decide) (by decide)).1⟩

end KuiperDB
